import Mathlib

/-!
# Verification of the metamanager socket client (`edge/pkg/metamanager/socket_client.go`)

Shallow embedding of

* `parseMessages`, the streaming JSON-object deframer,
* the accumulate step of `ReceiveMessage` (`buf = append(buf, chunk...)`, parse, keep the rest),
* `handleEdgeMeshMessage` / `isObjectEvent`, the dispatcher,
* the control flow of `runSocketClient` / `connectAndRun`, the reconnect supervisor.

Bytes are natural numbers (Go `byte`; the deframer only compares them with four constants).
`json.Unmarshal` belongs to the Go standard library, so the decoder is a parameter
`decode : List Nat → Option M` (`none` stands for a non-nil error).
-/

namespace MetaManager

set_option linter.unnecessarySeqFocus false

/-! ## The deframer `parseMessages` -/

/-- Byte `{`. -/
def LBRACE : Nat := 123
/-- Byte `}`. -/
def RBRACE : Nat := 125
/-- Byte `"`. -/
def QUOTE : Nat := 34
/-- Byte `\`. -/
def BACKSLASH : Nat := 92

/-- Local variables of `parseMessages`: `msgs`, `start`, `braceCount`, `inString`, `escape`. -/
structure ScanState (M : Type) where
  msgs : List M
  start : Nat
  braceCount : Int
  inString : Bool
  escape : Bool

/-- Values of the locals at function entry (Go zero values). -/
def ScanState.init {M : Type} : ScanState M :=
  { msgs := [], start := 0, braceCount := 0, inString := false, escape := false }

/-- Go slice expression `data[lo:hi]`. In `parseMessages` it is only evaluated with
`lo ≤ hi ≤ len(data)` (see `scan_start_le`), where it is `hi - lo` bytes from offset `lo`. -/
def slice (data : List Nat) (lo hi : Nat) : List Nat :=
  (data.drop lo).take (hi - lo)

/-- One iteration of `for i, b := range data { switch b { ... } }`. -/
def step {M : Type} (decode : List Nat → Option M) (data : List Nat)
    (s : ScanState M) (i b : Nat) : ScanState M :=
  if b = LBRACE then
    if !s.inString then
      { s with
        start := if s.braceCount = 0 then i else s.start
        braceCount := s.braceCount + 1 }
    else s
  else if b = RBRACE then
    if !s.inString then
      if s.braceCount - 1 = 0 then
        match decode (slice data s.start (i + 1)) with
        | some msg =>
          { s with braceCount := s.braceCount - 1, msgs := s.msgs ++ [msg], start := i + 1 }
        | none => { s with braceCount := s.braceCount - 1 }
      else { s with braceCount := s.braceCount - 1 }
    else s
  else if b = QUOTE then
    if !s.escape then { s with inString := !s.inString } else s
  else if b = BACKSLASH then
    { s with escape := !s.escape }
  else
    { s with escape := false }

/-- The `range` loop from index `i` over the bytes `rest` still to be visited. -/
def scan {M : Type} (decode : List Nat → Option M) (data : List Nat) :
    Nat → List Nat → ScanState M → ScanState M
  | _, [], s => s
  | i, b :: rest, s => scan decode data (i + 1) rest (step decode data s i b)

/-- State of the locals when the loop of `parseMessages` has finished. -/
def finalState {M : Type} (decode : List Nat → Option M) (data : List Nat) : ScanState M :=
  scan decode data 0 data ScanState.init

/-- Function `parseMessages`: returns `msgs, data[start:]`. -/
def parseMessages {M : Type} (decode : List Nat → Option M) (data : List Nat) :
    List M × List Nat :=
  let s := finalState decode data
  (s.msgs, data.drop s.start)

/-! ## The accumulate step of `ReceiveMessage` -/

/-- Lines 82-84 of `ReceiveMessage` for one chunk read from the socket: the chunk is appended
to `buf`, the buffer is parsed, `buf` becomes the remainder. The first component is the
new `buf`, the second the messages produced so far, in order. -/
def accumulate {M : Type} (decode : List Nat → Option M)
    (acc : List Nat × List M) (chunk : List Nat) : List Nat × List M :=
  let r := parseMessages decode (acc.1 ++ chunk)
  (r.2, acc.2 ++ r.1)

/-- The accumulate step run over the successive chunks of a connection, from `buf = nil`. -/
def feed {M : Type} (decode : List Nat → Option M) (chunks : List (List Nat)) :
    List Nat × List M :=
  chunks.foldl (accumulate decode) ([], [])

/-! ## The lexical part of the loop

`braceCount`, `inString` and `escape` evolve independently of `msgs`, `start` and the
decoder. `lexStep` is the `switch` of `parseMessages` restricted to these three locals. -/

/-- The three locals `braceCount`, `inString`, `escape`. -/
structure Lex where
  braceCount : Int
  inString : Bool
  escape : Bool
  deriving DecidableEq, Repr

/-- Zero values of the three locals. -/
def Lex.init : Lex := { braceCount := 0, inString := false, escape := false }

/-- Projection of the scan state on the three lexical locals. -/
def ScanState.lex {M : Type} (s : ScanState M) : Lex :=
  { braceCount := s.braceCount, inString := s.inString, escape := s.escape }

/-- The `switch b` of `parseMessages` on the lexical locals only. -/
def lexStep (l : Lex) (b : Nat) : Lex :=
  if b = LBRACE then
    if !l.inString then { l with braceCount := l.braceCount + 1 } else l
  else if b = RBRACE then
    if !l.inString then { l with braceCount := l.braceCount - 1 } else l
  else if b = QUOTE then
    if !l.escape then { l with inString := !l.inString } else l
  else if b = BACKSLASH then
    { l with escape := !l.escape }
  else
    { l with escape := false }

/-- The bytes `body` take the loop from depth at least 1 back to depth 0, outside a string
and with the escape flag clear, at the last byte and not before. -/
def spanRest : Lex → List Nat → Bool
  | _, [] => false
  | l, [b] =>
    (lexStep l b).braceCount == 0 && !(lexStep l b).inString && !(lexStep l b).escape
  | l, b :: c :: rest =>
    decide (1 ≤ (lexStep l b).braceCount) && spanRest (lexStep l b) (c :: rest)

/-- A brace-balanced span as the loop sees it: it starts with `{` at depth 0, and the depth
is back to 0 (outside a string, escape flag clear) exactly at its last byte. -/
def isSpan : List Nat → Bool
  | [] => false
  | b :: body => b == LBRACE && spanRest (lexStep Lex.init b) body

/-! ## Well-formed JSON texts (RFC 8259), as byte strings

This is the meaning of "well-formed JSON" in the properties below: the grammar of the
standard, with insignificant whitespace, string escapes and numbers. -/

/-- Insignificant whitespace: space, tab, line feed, carriage return. -/
def isWs (b : Nat) : Bool := b == 32 || b == 9 || b == 10 || b == 13

/-- Decimal digit. -/
def isDigit (b : Nat) : Bool := decide (48 ≤ b) && decide (b ≤ 57)

/-- Hexadecimal digit. -/
def isHex (b : Nat) : Bool :=
  isDigit b || (decide (65 ≤ b) && decide (b ≤ 70)) || (decide (97 ≤ b) && decide (b ≤ 102))

/-- A run of whitespace, possibly empty. -/
def Ws (t : List Nat) : Prop := ∀ b ∈ t, isWs b = true

/-- A non-empty run of digits. -/
def Digits (t : List Nat) : Prop := t ≠ [] ∧ ∀ b ∈ t, isDigit b = true

/-- Integer part of a number: `0`, or a non-zero digit followed by digits. -/
def JInt (t : List Nat) : Prop :=
  t = [48] ∨ ∃ d ds, t = d :: ds ∧ 49 ≤ d ∧ d ≤ 57 ∧ ∀ b ∈ ds, isDigit b = true

/-- Optional fraction: `.` digits. -/
def JFrac (t : List Nat) : Prop := t = [] ∨ ∃ ds, Digits ds ∧ t = 46 :: ds

/-- Optional exponent: `e` or `E`, optional sign, digits. -/
def JExp (t : List Nat) : Prop :=
  t = [] ∨ ∃ e sign ds, (e = 101 ∨ e = 69) ∧ (sign = [] ∨ sign = [43] ∨ sign = [45]) ∧
    Digits ds ∧ t = e :: (sign ++ ds)

/-- A JSON number. -/
def JNumber (t : List Nat) : Prop :=
  ∃ sign int frac exp, (sign = [] ∨ sign = [45]) ∧ JInt int ∧ JFrac frac ∧ JExp exp ∧
    t = sign ++ int ++ frac ++ exp

/-- The characters of a JSON string, between the quotes: unescaped bytes (anything from
0x20 up except the quote and the backslash), two-byte escapes, and `\uXXXX`. -/
inductive JChars : List Nat → Prop
  | nil : JChars []
  | plain (b : Nat) (t : List Nat) :
      32 ≤ b → b < 256 → b ≠ 34 → b ≠ 92 → JChars t → JChars (b :: t)
  | esc (e : Nat) (t : List Nat) :
      e ∈ [34, 92, 47, 98, 102, 110, 114, 116] → JChars t → JChars (92 :: e :: t)
  | uni (h1 h2 h3 h4 : Nat) (t : List Nat) :
      isHex h1 = true → isHex h2 = true → isHex h3 = true → isHex h4 = true →
      JChars t → JChars (92 :: 117 :: h1 :: h2 :: h3 :: h4 :: t)

/-- A JSON string: characters between two quotes. -/
def JString (t : List Nat) : Prop := ∃ cs, JChars cs ∧ t = 34 :: (cs ++ [34])

/-- Syntactic categories of the recursive part of the grammar. -/
inductive Cat where
  | value
  | elements
  | members

/-- The recursive part of the JSON grammar: values, the element list of an array
(`ws value ws`, separated by commas) and the member list of an object
(`ws string ws : ws value ws`, separated by commas). -/
inductive Json : Cat → List Nat → Prop
  | litTrue : Json Cat.value [116, 114, 117, 101]
  | litFalse : Json Cat.value [102, 97, 108, 115, 101]
  | litNull : Json Cat.value [110, 117, 108, 108]
  | number (t : List Nat) : JNumber t → Json Cat.value t
  | string (t : List Nat) : JString t → Json Cat.value t
  | arrayEmpty (w : List Nat) : Ws w → Json Cat.value (91 :: (w ++ [93]))
  | array (t : List Nat) : Json Cat.elements t → Json Cat.value (91 :: (t ++ [93]))
  | objectEmpty (w : List Nat) : Ws w → Json Cat.value (123 :: (w ++ [125]))
  | object (t : List Nat) : Json Cat.members t → Json Cat.value (123 :: (t ++ [125]))
  | elemLast (w1 v w2 : List Nat) :
      Ws w1 → Json Cat.value v → Ws w2 → Json Cat.elements (w1 ++ v ++ w2)
  | elemCons (w1 v w2 t : List Nat) :
      Ws w1 → Json Cat.value v → Ws w2 → Json Cat.elements t →
      Json Cat.elements (w1 ++ v ++ w2 ++ 44 :: t)
  | memLast (w1 k w2 w3 v w4 : List Nat) :
      Ws w1 → JString k → Ws w2 → Ws w3 → Json Cat.value v → Ws w4 →
      Json Cat.members (w1 ++ k ++ w2 ++ 58 :: (w3 ++ v ++ w4))
  | memCons (w1 k w2 w3 v w4 t : List Nat) :
      Ws w1 → JString k → Ws w2 → Ws w3 → Json Cat.value v → Ws w4 → Json Cat.members t →
      Json Cat.members (w1 ++ k ++ w2 ++ 58 :: (w3 ++ v ++ w4) ++ 44 :: t)

/-- A JSON object text: `{`, whitespace or a member list, `}`. -/
def JObject (w : List Nat) : Prop :=
  ∃ t, (Ws t ∨ Json Cat.members t) ∧ w = 123 :: (t ++ [125])

/-- A well-formed message on the wire: a JSON object text that `json.Unmarshal` decodes,
into `m`. -/
def WellFormed {M : Type} (decode : List Nat → Option M) (w : List Nat) (m : M) : Prop :=
  JObject w ∧ decode w = some m

/-- The text contains no backslash byte. -/
@[reducible] def NoBackslash (w : List Nat) : Prop := BACKSLASH ∉ w

/-! ## Decoders used in concrete examples -/

/-- A decoder that accepts every span and returns its bytes. -/
def acceptAll : List Nat → Option (List Nat) := fun w => some w

/-- A decoder that rejects the span `bad` and accepts every other span, returning its
bytes. -/
def rejectOnly (bad : List Nat) : List Nat → Option (List Nat) :=
  fun w => if w = bad then none else some w

/-! ## The dispatcher `handleEdgeMeshMessage` -/

/-- The dynamic value held by `Message.Content` (`interface{}`) after `json.Unmarshal`:
`nil`, `bool`, `float64` (kept as its literal), `string`, `[]interface{}` or
`map[string]interface{}` (kept as its list of key/value pairs). -/
inductive Content where
  | null : Content
  | bool (b : Bool) : Content
  | number (literal : String) : Content
  | string (s : String) : Content
  | array (xs : List Content) : Content
  | object (fields : List (String × Content)) : Content

/-- Modelled from the spec: `model.Message` of the beehive library (spec section 3):
identity, routing, timestamp and the content payload. -/
structure Message where
  id : String
  parentId : String
  timestamp : Int
  source : String
  group : String
  resource : String
  operation : String
  content : Content

/-- Method `GetContent`. -/
def Message.GetContent (msg : Message) : Content := msg.content

/-- Type assertion `x.(map[string]interface{})` in its two-result form: the map and `ok`;
the zero value (a nil map) when the assertion fails. -/
def asMap : Content → List (String × Content) × Bool
  | Content.object fields => (fields, true)
  | _ => ([], false)

/-- Function `isObjectEvent`: `_, ok := data["eventName"]`. -/
def isObjectEvent (data : List (String × Content)) : Bool :=
  let ok := (data.lookup "eventName").isSome
  if !ok then false else ok

/-- Function `handleEdgeMeshMessage`, as the list of calls `beehiveContext.Send(name, msg)`
it makes; `name` is `m.Name()`. -/
def handleEdgeMeshMessage (name : String) (msg : Message) : List (String × Message) :=
  let r := asMap msg.GetContent
  if r.2 && isObjectEvent r.1 then []
  else [(name, msg)]

/-! ## The reconnect supervisor `runSocketClient` / `connectAndRun`

The supervisor goroutine is modelled by its control locations. The `for` loop of
`runSocketClient` calls `connectAndRun`, which calls `Connect` first (`connecting`), then
waits in its `select` (`running`); a non-nil result sends `runSocketClient` to its own
`select` (`backoffWait`), a nil result straight back to the top of the loop. The
environment supplies the inputs: the cancellation of the context, the result of
`Connect`, and which ready case a `select` takes. -/

/-- Control locations of the supervisor. -/
inductive Phase where
  | connecting
  | running
  | backoffWait
  | stopped
  deriving DecidableEq, Repr

/-- Supervisor state: control location, and whether the context has been cancelled. -/
structure Sup where
  phase : Phase
  cancelled : Bool
  deriving DecidableEq, Repr

/-- Entry of `runSocketClient`: top of the loop, context not cancelled. -/
def Sup.init : Sup := { phase := Phase.connecting, cancelled := false }

/-- The content is a JSON object that has the key `eventName`. -/
def ContainsEventName (c : Content) : Prop :=
  ∃ fields, c = Content.object fields ∧ ∃ v, ("eventName", v) ∈ fields

/-! ## Example buffers -/

/-- The bytes of `{"id":"1","note":"\""}`: the note is one escaped quote character. -/
def exEscapedQuote : List Nat :=
  [123, 34, 105, 100, 34, 58, 34, 49, 34, 44, 34, 110, 111, 116, 101, 34, 58, 34, 92, 34, 34,
    125]

/-- The bytes of `{"id":"1","note":"}{"}`. -/
def exBraces : List Nat :=
  [123, 34, 105, 100, 34, 58, 34, 49, 34, 44, 34, 110, 111, 116, 101, 34, 58, 34, 125, 123, 34,
    125]

/-- The bytes of `{"id":"1"}`. -/
def exId1 : List Nat := [123, 34, 105, 100, 34, 58, 34, 49, 34, 125]

/-- The bytes of `{"id":"2"}`. -/
def exId2 : List Nat := [123, 34, 105, 100, 34, 58, 34, 50, 34, 125]

/-- The bytes of `{"id":"1","not`, the first chunk of a message cut in two. -/
def exChunk1 : List Nat := [123, 34, 105, 100, 34, 58, 34, 49, 34, 44, 34, 110, 111, 116]

/-- The bytes of `e":"\""}`, a second chunk: with `exChunk1` in front it completes
`exEscapedQuote`. -/
def exChunk2 : List Nat := [101, 34, 58, 34, 92, 34, 34, 125]

/-- The bytes of `{x}`: brace-balanced, not JSON. -/
def exBad : List Nat := [123, 120, 125]

/-- The bytes of `{"a":1}` followed by a line feed. -/
def exTrailing : List Nat := [123, 34, 97, 34, 58, 49, 125, 10]

/-! ## Auxiliary states used in the statements -/

/-- The locals right after the `}` that closes a span opened at `s.start` and ending just
before index `hi`: the decoded message is appended and `start` moved to `hi` when
`json.Unmarshal` succeeds, nothing but the depth changes when it fails. -/
def closeState {M : Type} (decode : List Nat → Option M) (data : List Nat)
    (s : ScanState M) (hi : Nat) : ScanState M :=
  match decode (slice data s.start hi) with
  | some msg =>
    { msgs := s.msgs ++ [msg], start := hi, braceCount := 0, inString := false,
      escape := false }
  | none =>
    { msgs := s.msgs, start := s.start, braceCount := 0, inString := false, escape := false }

/-- The text `t` is lexically neutral: met at depth at least 1 outside a string with
the escape flag clear, it leaves the three lexical locals as they were and never brings
the depth below 1. Stated on `spanRest`: `t` can be dropped from the front of the rest
of a span. -/
def Neutral (t : List Nat) : Prop :=
  ∀ (l : Lex) (c : Nat) (rest : List Nat), l.inString = false → l.escape = false →
    1 ≤ l.braceCount → spanRest l (t ++ c :: rest) = spanRest l (c :: rest)

/-- A byte that the `switch` sends to its `default` case. -/
def Plain (b : Nat) : Prop := b ≠ LBRACE ∧ b ≠ RBRACE ∧ b ≠ QUOTE ∧ b ≠ BACKSLASH

/-- Relation between the locals `s` of the loop running on `pre ++ post` (at index
`i + n`, `n` the length of `pre`) and the locals `t` of the loop running on `post` alone
(at index `i`): same lexical locals, the messages of `s` are those of `t` after `pfx`,
and `start` is either shifted by `n` or, when `unset` is allowed, still at its value `c`
from before `post` with no span open. -/
def Shifted {M : Type} (n : Nat) (pfx : List M) (unset : Bool) (c : Nat)
    (s t : ScanState M) : Prop :=
  s.lex = t.lex ∧ s.msgs = pfx ++ t.msgs ∧
    (s.start = t.start + n ∨ (unset = true ∧ s.start = c ∧ s.braceCount ≤ 0))

/-- Where `start` can point when the loop is about to visit index `i` of `data`: never
beyond `i`, and either at 0, or at an opening brace, or just behind a span that was
decoded. -/
def StartInv {M : Type} (decode : List Nat → Option M) (data : List Nat) (i : Nat)
    (s : ScanState M) : Prop :=
  s.start ≤ i ∧
    (s.start = 0 ∨ data[s.start]? = some LBRACE ∨
      ∃ a m, a < s.start ∧ decode (slice data a s.start) = some m)

/-! ## Basic facts about one loop iteration -/

theorem step_lex {M : Type} (decode : List Nat → Option M) (data : List Nat)
    (s : ScanState M) (i b : Nat) :
    (step decode data s i b).lex = lexStep s.lex b := by
  rcases s with ⟨msgs, start, bc, ins, esc⟩
  simp only [step, lexStep, ScanState.lex]
  split_ifs <;> first | rfl | (split <;> rfl)

/-- Inside the body of a span (depth at least 1 before and after the byte) an iteration
leaves `msgs` and `start` alone. -/
theorem step_inner {M : Type} (decode : List Nat → Option M) (data : List Nat)
    (s : ScanState M) (i b : Nat) (h0 : 1 ≤ s.braceCount)
    (h1 : 1 ≤ (lexStep s.lex b).braceCount) :
    (step decode data s i b).msgs = s.msgs ∧ (step decode data s i b).start = s.start := by
  rcases s with ⟨msgs, start, bc, ins, esc⟩
  simp only [step, lexStep, ScanState.lex] at h0 h1 ⊢
  split_ifs at h1 ⊢ <;> simp_all

/-- The byte that takes the depth from at least 1 to 0 is a `}` outside a string: the
iteration decodes the span from `start` up to and including that byte. -/
theorem step_close {M : Type} (decode : List Nat → Option M) (data : List Nat)
    (s : ScanState M) (i b : Nat) (h0 : 1 ≤ s.braceCount)
    (h1 : (lexStep s.lex b).braceCount = 0) (h2 : (lexStep s.lex b).inString = false)
    (h3 : (lexStep s.lex b).escape = false) :
    step decode data s i b = closeState decode data s (i + 1) := by
  rcases s with ⟨msgs, start, bc, ins, esc⟩
  simp only [step, lexStep, ScanState.lex, closeState] at h0 h1 h2 h3 ⊢
  split_ifs at h1 h2 h3 ⊢ <;> simp_all <;> omega

theorem scan_append {M : Type} (decode : List Nat → Option M) (data : List Nat)
    (t rest : List Nat) (i : Nat) (s : ScanState M) :
    scan decode data i (t ++ rest) s
      = scan decode data (i + t.length) rest (scan decode data i t s) := by
  induction t generalizing i s with
  | nil => simp [scan]
  | cons b t ih =>
    have e : i + (t.length + 1) = i + 1 + t.length := by omega
    rw [List.cons_append, scan, scan, ih, List.length_cons, e]

/-- The loop over the rest of a span, entered at depth at least 1: nothing happens until the
closing byte, where the span from `start` is decoded. -/
theorem scan_spanRest {M : Type} (decode : List Nat → Option M) (data : List Nat)
    (body : List Nat) (i : Nat) (s : ScanState M) (h0 : 1 ≤ s.braceCount)
    (h : spanRest s.lex body = true) :
    scan decode data i body s = closeState decode data s (i + body.length) := by
  induction body generalizing i s with
  | nil => simp [spanRest] at h
  | cons b body ih =>
    cases body with
    | nil =>
      simp only [spanRest, Bool.and_eq_true, beq_iff_eq, Bool.not_eq_true'] at h
      simp only [scan, List.length_singleton]
      exact step_close decode data s i b h0 h.1.1 h.1.2 h.2
    | cons c rest =>
      simp only [spanRest, Bool.and_eq_true, decide_eq_true_eq] at h
      have hin := step_inner decode data s i b h0 h.1
      have hlex := step_lex decode data s i b
      have h0' : 1 ≤ (step decode data s i b).braceCount := by
        have := h.1
        rw [← hlex] at this
        exact this
      have hsp : spanRest (step decode data s i b).lex (c :: rest) = true := by
        rw [hlex]
        exact h.2
      have := ih (i + 1) (step decode data s i b) h0' hsp
      rw [scan, this]
      simp only [closeState, hin.1, hin.2, List.length_cons]
      have e : i + 1 + (rest.length + 1) = i + (rest.length + 1 + 1) := by omega
      rw [e]

/-- The loop over a whole span met at depth 0 outside a string: `start` is set to the
index of its first byte and the span is decoded at its last byte. -/
theorem scan_isSpan {M : Type} (decode : List Nat → Option M) (data : List Nat)
    (m : List Nat) (i : Nat) (s : ScanState M) (hs : s.lex = Lex.init)
    (h : isSpan m = true) :
    scan decode data i m s
      = closeState decode data { s with start := i } (i + m.length) := by
  cases m with
  | nil => simp [isSpan] at h
  | cons b body =>
    simp only [isSpan, Bool.and_eq_true, beq_iff_eq] at h
    obtain ⟨hb, hrest⟩ := h
    subst hb
    rcases s with ⟨msgs, start, bc, ins, esc⟩
    simp only [ScanState.lex, Lex.init, Lex.mk.injEq] at hs
    obtain ⟨h1, h2, h3⟩ := hs
    subst h1 h2 h3
    have hstep : step decode data ⟨msgs, start, 0, false, false⟩ i LBRACE
        = ⟨msgs, i, 1, false, false⟩ := by
      simp [step]
    have hl : lexStep Lex.init LBRACE = (⟨msgs, i, 1, false, false⟩ : ScanState M).lex := by
      simp [lexStep, Lex.init, ScanState.lex]
    rw [hl] at hrest
    rw [scan, hstep, scan_spanRest decode data body (i + 1) _ (by simp) hrest]
    simp only [closeState, List.length_cons]
    have e : i + 1 + body.length = i + (body.length + 1) := by omega
    rw [e]

/-! ## Well-formed JSON without backslashes is a span -/

theorem spanRest_cons {l : Lex} {b : Nat} {tail : List Nat} (h : tail ≠ []) :
    spanRest l (b :: tail)
      = (decide (1 ≤ (lexStep l b).braceCount) && spanRest (lexStep l b) tail) := by
  cases tail with
  | nil => exact absurd rfl h
  | cons c rest => rfl

theorem neutral_nil : Neutral [] := by
  intro l c rest _ _ _
  rfl

theorem neutral_append {t u : List Nat} (ht : Neutral t) (hu : Neutral u) :
    Neutral (t ++ u) := by
  intro l c rest h1 h2 h3
  cases u with
  | nil => simpa using ht l c rest h1 h2 h3
  | cons d u =>
    have e : t ++ d :: u ++ c :: rest = t ++ d :: (u ++ c :: rest) := by simp
    rw [e, ht l d (u ++ c :: rest) h1 h2 h3]
    exact hu l c rest h1 h2 h3

theorem lexStep_plain {l : Lex} {b : Nat} (hb : Plain b) :
    lexStep l b = { l with escape := false } := by
  obtain ⟨h1, h2, h3, h4⟩ := hb
  simp [lexStep, h1, h2, h3, h4]

theorem neutral_plain {t : List Nat} (h : ∀ b ∈ t, Plain b) : Neutral t := by
  induction t with
  | nil => exact neutral_nil
  | cons b t ih =>
    intro l c rest h1 h2 h3
    have ht := ih (fun x hx => h x (List.mem_cons_of_mem _ hx))
    have hb := h b (List.mem_cons_self _ _)
    have hl : lexStep l b = l := by
      rw [lexStep_plain hb]
      rcases l with ⟨bc, ins, esc⟩
      simp only at h2
      simp [h2]
    rw [List.cons_append, spanRest_cons (by simp), hl, ht l c rest h1 h2 h3]
    simp [h3]

theorem neutral_single {b : Nat} (hb : Plain b) : Neutral [b] :=
  neutral_plain (by
    intro x hx
    rw [List.mem_singleton] at hx
    rw [hx]
    exact hb)

/-- Inside a string, bytes other than the quote and the backslash change nothing. -/
theorem spanRest_inString {cs : List Nat} (h : ∀ b ∈ cs, b ≠ QUOTE ∧ b ≠ BACKSLASH)
    (l : Lex) (c : Nat) (rest : List Nat) (h1 : l.inString = true) (h2 : l.escape = false)
    (h3 : 1 ≤ l.braceCount) :
    spanRest l (cs ++ c :: rest) = spanRest l (c :: rest) := by
  induction cs with
  | nil => rfl
  | cons b cs ih =>
    have hb := h b (List.mem_cons_self _ _)
    have hl : lexStep l b = l := by
      rcases l with ⟨bc, ins, esc⟩
      simp only at h1 h2
      subst h1 h2
      simp only [lexStep]
      split_ifs <;> simp_all
    rw [List.cons_append, spanRest_cons (by simp), hl,
      ih (fun x hx => h x (List.mem_cons_of_mem _ hx))]
    simp [h3]

theorem neutral_quoted {cs : List Nat} (h : ∀ b ∈ cs, b ≠ QUOTE ∧ b ≠ BACKSLASH) :
    Neutral (QUOTE :: (cs ++ [QUOTE])) := by
  intro l c rest h1 h2 h3
  rcases l with ⟨bc, ins, esc⟩
  simp only at h1 h2 h3
  subst h1 h2
  have e : QUOTE :: (cs ++ [QUOTE]) ++ c :: rest = QUOTE :: (cs ++ QUOTE :: (c :: rest)) := by
    simp
  have hopen : lexStep ⟨bc, false, false⟩ QUOTE = ⟨bc, true, false⟩ := by
    simp [lexStep, QUOTE, LBRACE, RBRACE]
  have hclose : lexStep ⟨bc, true, false⟩ QUOTE = ⟨bc, false, false⟩ := by
    simp [lexStep, QUOTE, LBRACE, RBRACE]
  rw [e, spanRest_cons (by simp), hopen, spanRest_inString h _ _ _ rfl rfl h3,
    spanRest_cons (by simp), hclose]
  simp [h3]

theorem neutral_braces {t : List Nat} (ht : Neutral t) :
    Neutral (LBRACE :: (t ++ [RBRACE])) := by
  intro l c rest h1 h2 h3
  rcases l with ⟨bc, ins, esc⟩
  simp only at h1 h2 h3
  subst h1 h2
  have e : LBRACE :: (t ++ [RBRACE]) ++ c :: rest = LBRACE :: (t ++ RBRACE :: (c :: rest)) := by
    simp
  have hopen : lexStep ⟨bc, false, false⟩ LBRACE = ⟨bc + 1, false, false⟩ := by
    simp [lexStep]
  have hclose : lexStep ⟨bc + 1, false, false⟩ RBRACE = ⟨bc, false, false⟩ := by
    simp [lexStep, LBRACE, RBRACE]
  rw [e, spanRest_cons (by simp), hopen, ht _ _ _ rfl rfl (by simp; omega),
    spanRest_cons (by simp), hclose]
  have : (1 : Int) ≤ bc + 1 := by omega
  simp [h3, this]

theorem plain_of_isWs {b : Nat} (h : isWs b = true) : Plain b := by
  simp only [isWs, Bool.or_eq_true, beq_iff_eq] at h
  simp only [Plain, LBRACE, RBRACE, QUOTE, BACKSLASH]
  omega

theorem plain_of_isDigit {b : Nat} (h : isDigit b = true) : Plain b := by
  simp only [isDigit, Bool.and_eq_true, decide_eq_true_eq] at h
  simp only [Plain, LBRACE, RBRACE, QUOTE, BACKSLASH]
  omega

theorem neutral_ws {t : List Nat} (h : Ws t) : Neutral t :=
  neutral_plain (fun b hb => plain_of_isWs (h b hb))

theorem neutral_digits {t : List Nat} (h : ∀ b ∈ t, isDigit b = true) : Neutral t :=
  neutral_plain (fun b hb => plain_of_isDigit (h b hb))

theorem neutral_int {t : List Nat} (h : JInt t) : Neutral t := by
  rcases h with h | ⟨d, ds, h, h1, h2, h3⟩
  · subst h
    exact neutral_single (by simp [Plain, LBRACE, RBRACE, QUOTE, BACKSLASH])
  · subst h
    have hd : Plain d := by
      simp only [Plain, LBRACE, RBRACE, QUOTE, BACKSLASH]
      omega
    exact neutral_append (neutral_single hd) (neutral_digits h3)

theorem neutral_frac {t : List Nat} (h : JFrac t) : Neutral t := by
  rcases h with h | ⟨ds, h1, h⟩
  · subst h
    exact neutral_nil
  · subst h
    exact neutral_append (t := [46])
      (neutral_single (by simp [Plain, LBRACE, RBRACE, QUOTE, BACKSLASH])) (neutral_digits h1.2)

theorem neutral_exp {t : List Nat} (h : JExp t) : Neutral t := by
  rcases h with h | ⟨e, sign, ds, he, hsign, hds, h⟩
  · subst h
    exact neutral_nil
  · subst h
    have h1 : Neutral [e] := by
      rcases he with he | he <;> subst he <;>
        exact neutral_single (by simp [Plain, LBRACE, RBRACE, QUOTE, BACKSLASH])
    have h2 : Neutral sign := by
      rcases hsign with hs | hs | hs <;> subst hs
      · exact neutral_nil
      · exact neutral_single (by simp [Plain, LBRACE, RBRACE, QUOTE, BACKSLASH])
      · exact neutral_single (by simp [Plain, LBRACE, RBRACE, QUOTE, BACKSLASH])
    exact neutral_append (t := [e]) h1 (neutral_append h2 (neutral_digits hds.2))

theorem neutral_number {t : List Nat} (h : JNumber t) : Neutral t := by
  obtain ⟨sign, int, frac, exp, hsign, hint, hfrac, hexp, h⟩ := h
  subst h
  have h2 : Neutral sign := by
    rcases hsign with hs | hs <;> subst hs
    · exact neutral_nil
    · exact neutral_single (by simp [Plain, LBRACE, RBRACE, QUOTE, BACKSLASH])
  exact neutral_append (neutral_append (neutral_append h2 (neutral_int hint))
    (neutral_frac hfrac)) (neutral_exp hexp)

/-- Without a backslash, the characters of a string contain no quote. -/
theorem chars_no_quote {cs : List Nat} (h : JChars cs) (hb : BACKSLASH ∉ cs) :
    ∀ b ∈ cs, b ≠ QUOTE ∧ b ≠ BACKSLASH := by
  induction h with
  | nil => simp
  | plain b t _ _ h3 h4 _ ih =>
    intro x hx
    rw [List.mem_cons] at hx
    rcases hx with hx | hx
    · subst hx
      exact ⟨h3, h4⟩
    · exact ih (fun hm => hb (List.mem_cons_of_mem _ hm)) x hx
  | esc e t _ _ _ => exact absurd (List.mem_cons_self _ _) hb
  | uni h1 h2 h3 h4 t _ _ _ _ _ _ => exact absurd (List.mem_cons_self _ _) hb

theorem neutral_string {t : List Nat} (h : JString t) (hb : BACKSLASH ∉ t) : Neutral t := by
  obtain ⟨cs, hcs, h⟩ := h
  subst h
  have hb2 : BACKSLASH ∉ cs := by
    intro hm
    exact hb (List.mem_cons_of_mem _ (List.mem_append_left _ hm))
  exact neutral_quoted (chars_no_quote hcs hb2)

/-- Every JSON text without a backslash is lexically neutral for the loop. -/
theorem neutral_json {k : Cat} {t : List Nat} (h : Json k t) (hb : BACKSLASH ∉ t) :
    Neutral t := by
  have p91 : Plain 91 := by simp [Plain, LBRACE, RBRACE, QUOTE, BACKSLASH]
  have p93 : Plain 93 := by simp [Plain, LBRACE, RBRACE, QUOTE, BACKSLASH]
  have p44 : Plain 44 := by simp [Plain, LBRACE, RBRACE, QUOTE, BACKSLASH]
  have p58 : Plain 58 := by simp [Plain, LBRACE, RBRACE, QUOTE, BACKSLASH]
  induction h with
  | litTrue => exact neutral_plain (by simp [Plain, LBRACE, RBRACE, QUOTE, BACKSLASH])
  | litFalse => exact neutral_plain (by simp [Plain, LBRACE, RBRACE, QUOTE, BACKSLASH])
  | litNull => exact neutral_plain (by simp [Plain, LBRACE, RBRACE, QUOTE, BACKSLASH])
  | number t h => exact neutral_number h
  | string t h => exact neutral_string h hb
  | arrayEmpty w hw =>
    exact neutral_append (t := [91]) (neutral_single p91)
      (neutral_append (neutral_ws hw) (neutral_single p93))
  | array t _ ih =>
    simp only [List.mem_cons, List.mem_append, not_or] at hb
    exact neutral_append (t := [91]) (neutral_single p91)
      (neutral_append (ih hb.2.1) (neutral_single p93))
  | objectEmpty w hw => exact neutral_braces (neutral_ws hw)
  | object t _ ih =>
    simp only [List.mem_cons, List.mem_append, not_or] at hb
    exact neutral_braces (ih hb.2.1)
  | elemLast w1 v w2 h1 _ h2 ih =>
    simp only [List.mem_append, not_or] at hb
    exact neutral_append (neutral_append (neutral_ws h1) (ih hb.1.2)) (neutral_ws h2)
  | elemCons w1 v w2 t h1 _ h2 _ ihv iht =>
    simp only [List.mem_append, List.mem_cons, not_or] at hb
    exact neutral_append (neutral_append (neutral_append (neutral_ws h1) (ihv hb.1.1.2))
      (neutral_ws h2)) (neutral_append (t := [44]) (neutral_single p44) (iht hb.2.2))
  | memLast w1 k w2 w3 v w4 h1 hk h2 h3 _ h4 ih =>
    simp only [List.mem_append, List.mem_cons, not_or] at hb
    exact neutral_append
      (neutral_append (neutral_append (neutral_ws h1) (neutral_string hk hb.1.1.2))
        (neutral_ws h2))
      (neutral_append (t := [58]) (neutral_single p58)
        (neutral_append (neutral_append (neutral_ws h3) (ih hb.2.2.1.2)) (neutral_ws h4)))
  | memCons w1 k w2 w3 v w4 t h1 hk h2 h3 _ h4 _ ihv iht =>
    simp only [List.mem_append, List.mem_cons, not_or] at hb
    exact neutral_append
      (neutral_append
        (neutral_append (neutral_append (neutral_ws h1) (neutral_string hk hb.1.1.1.2))
          (neutral_ws h2))
        (neutral_append (t := [58]) (neutral_single p58)
          (neutral_append (neutral_append (neutral_ws h3) (ihv hb.1.2.2.1.2)) (neutral_ws h4))))
      (neutral_append (t := [44]) (neutral_single p44) (iht hb.2.2))

/-- A JSON object text without a backslash is one span for the loop. -/
theorem isSpan_of_object {w : List Nat} (h : JObject w) (hb : NoBackslash w) :
    isSpan w = true := by
  obtain ⟨t, ht, hw⟩ := h
  subst hw
  have hb2 : BACKSLASH ∉ t := by
    intro hm
    exact hb (List.mem_cons_of_mem _ (List.mem_append_left _ hm))
  have hn : Neutral t := by
    rcases ht with ht | ht
    · exact neutral_ws ht
    · exact neutral_json ht hb2
  have hopen : lexStep Lex.init 123 = ⟨1, false, false⟩ := by
    simp [lexStep, Lex.init, LBRACE]
  have h1 := hn ⟨1, false, false⟩ 125 [] rfl rfl (by simp)
  simp only [isSpan, LBRACE, beq_self_eq_true, Bool.true_and, hopen]
  rw [h1]
  simp [spanRest, lexStep, LBRACE, RBRACE]

/-! ## The loop on a buffer with bytes in front -/

theorem slice_shift (pre post : List Nat) (a hi : Nat) :
    slice (pre ++ post) (a + pre.length) (hi + pre.length) = slice post a hi := by
  unfold slice
  have e1 : a + pre.length = pre.length + a := by omega
  have e2 : hi + pre.length - (pre.length + a) = hi - a := by omega
  rw [e1, List.drop_append, e2]

theorem slice_whole_left (w rest : List Nat) : slice (w ++ rest) 0 w.length = w := by
  simp [slice]

theorem byte_cases (b : Nat) :
    b = LBRACE ∨ b = RBRACE ∨ b = QUOTE ∨ b = BACKSLASH ∨ Plain b := by
  by_cases h1 : b = LBRACE
  · exact Or.inl h1
  · by_cases h2 : b = RBRACE
    · exact Or.inr (Or.inl h2)
    · by_cases h3 : b = QUOTE
      · exact Or.inr (Or.inr (Or.inl h3))
      · by_cases h4 : b = BACKSLASH
        · exact Or.inr (Or.inr (Or.inr (Or.inl h4)))
        · exact Or.inr (Or.inr (Or.inr (Or.inr ⟨h1, h2, h3, h4⟩)))

theorem step_lbrace {M : Type} (decode : List Nat → Option M) (data : List Nat)
    (s : ScanState M) (i : Nat) :
    step decode data s i LBRACE
      = if s.inString = true then s
        else { s with
          start := if s.braceCount = 0 then i else s.start
          braceCount := s.braceCount + 1 } := by
  cases h : s.inString <;> simp [step, h]

theorem step_rbrace {M : Type} (decode : List Nat → Option M) (data : List Nat)
    (s : ScanState M) (i : Nat) :
    step decode data s i RBRACE
      = if s.inString = true then s
        else if s.braceCount - 1 = 0 then
          match decode (slice data s.start (i + 1)) with
          | some msg =>
            { s with braceCount := s.braceCount - 1, msgs := s.msgs ++ [msg], start := i + 1 }
          | none => { s with braceCount := s.braceCount - 1 }
        else { s with braceCount := s.braceCount - 1 } := by
  cases h : s.inString <;> simp [step, h, LBRACE, RBRACE]

theorem step_quote {M : Type} (decode : List Nat → Option M) (data : List Nat)
    (s : ScanState M) (i : Nat) :
    step decode data s i QUOTE
      = if s.escape = true then s else { s with inString := !s.inString } := by
  cases h : s.escape <;> simp [step, h, LBRACE, RBRACE, QUOTE]

theorem step_backslash {M : Type} (decode : List Nat → Option M) (data : List Nat)
    (s : ScanState M) (i : Nat) :
    step decode data s i BACKSLASH = { s with escape := !s.escape } := by
  simp [step, LBRACE, RBRACE, QUOTE, BACKSLASH]

theorem step_plain {M : Type} (decode : List Nat → Option M) (data : List Nat)
    (s : ScanState M) (i : Nat) {b : Nat} (hb : Plain b) :
    step decode data s i b = { s with escape := false } := by
  obtain ⟨h1, h2, h3, h4⟩ := hb
  simp [step, h1, h2, h3, h4]

theorem step_shifted {M : Type} (decode : List Nat → Option M) (pre post : List Nat)
    (pfx : List M) (unset : Bool) (c i b : Nat) (s t : ScanState M)
    (h : Shifted pre.length pfx unset c s t) :
    Shifted pre.length pfx unset c
      (step decode (pre ++ post) s (i + pre.length) b) (step decode post t i b) := by
  rcases s with ⟨m1, st1, bc1, in1, es1⟩
  rcases t with ⟨m2, st2, bc2, in2, es2⟩
  obtain ⟨hl, hm, hst⟩ := h
  simp only [ScanState.lex, Lex.mk.injEq] at hl
  obtain ⟨h1, h2, h3⟩ := hl
  subst h1 h2 h3
  simp only at hm hst
  subst hm
  rcases byte_cases b with hb | hb | hb | hb | hb
  · subst hb
    rw [step_lbrace, step_lbrace]
    cases in1
    · by_cases e0 : bc1 = 0
      · simp [Shifted, e0, ScanState.lex]
      · simp only [Shifted, e0, ScanState.lex, if_false, Bool.false_eq_true, true_and]
        rcases hst with hst | ⟨hu, hc, hle⟩
        · exact Or.inl hst
        · exact Or.inr ⟨hu, hc, by omega⟩
    · simpa [Shifted, ScanState.lex] using hst
  · subst hb
    rw [step_rbrace, step_rbrace]
    cases in1
    · by_cases e0 : bc1 - 1 = 0
      · have hs : st1 = st2 + pre.length := by
          rcases hst with hst | ⟨_, _, hle⟩
          · exact hst
          · omega
        subst hs
        have hsl : slice (pre ++ post) (st2 + pre.length) (i + pre.length + 1)
            = slice post st2 (i + 1) := by
          have e : i + pre.length + 1 = (i + 1) + pre.length := by omega
          rw [e, slice_shift]
        simp only [e0, hsl, if_true, if_false, Bool.false_eq_true]
        cases decode (slice post st2 (i + 1)) with
        | none => simp [Shifted, ScanState.lex]
        | some msg =>
          simp only [Shifted, ScanState.lex, List.append_assoc, true_and]
          left
          omega
      · simp only [Shifted, e0, ScanState.lex, if_false, Bool.false_eq_true, true_and]
        rcases hst with hst | ⟨hu, hc, hle⟩
        · exact Or.inl hst
        · exact Or.inr ⟨hu, hc, by omega⟩
    · simpa [Shifted, ScanState.lex] using hst
  · subst hb
    rw [step_quote, step_quote]
    cases es1 <;> simpa [Shifted, ScanState.lex] using hst
  · subst hb
    rw [step_backslash, step_backslash]
    simpa [Shifted, ScanState.lex] using hst
  · rw [step_plain _ _ _ _ hb, step_plain _ _ _ _ hb]
    simpa [Shifted, ScanState.lex] using hst

theorem scan_shifted {M : Type} (decode : List Nat → Option M) (pre post : List Nat)
    (pfx : List M) (unset : Bool) (c : Nat) (rest : List Nat) (i : Nat) (s t : ScanState M)
    (h : Shifted pre.length pfx unset c s t) :
    Shifted pre.length pfx unset c
      (scan decode (pre ++ post) (i + pre.length) rest s) (scan decode post i rest t) := by
  induction rest generalizing i s t with
  | nil => exact h
  | cons b rest ih =>
    have e : i + pre.length + 1 = (i + 1) + pre.length := by omega
    rw [scan, scan, e]
    exact ih (i + 1) _ _ (step_shifted decode pre post pfx unset c i b s t h)

/-! ## Spans at the front of the buffer -/

theorem finalState_span_ok {M : Type} (decode : List Nat → Option M) (w rest : List Nat)
    (m : M) (hw : isSpan w = true) (hd : decode w = some m) :
    Shifted w.length [m] false 0 (finalState decode (w ++ rest)) (finalState decode rest) := by
  unfold finalState
  rw [scan_append, scan_isSpan decode (w ++ rest) w 0 ScanState.init rfl hw]
  have hc : closeState decode (w ++ rest) { (ScanState.init : ScanState M) with start := 0 }
      (0 + w.length) = ⟨[m], w.length, 0, false, false⟩ := by
    simp [closeState, slice_whole_left, hd, ScanState.init]
  rw [hc]
  apply scan_shifted
  simp [Shifted, ScanState.lex, ScanState.init]

theorem drop_shift (pre post : List Nat) (a : Nat) :
    (pre ++ post).drop (a + pre.length) = post.drop a := by
  have e : a + pre.length = pre.length + a := by omega
  rw [e, List.drop_append]

/-- A span that decodes, at the front of the buffer: its message comes first, and the
rest of the result is the result for the rest of the buffer. -/
theorem parse_span_ok {M : Type} (decode : List Nat → Option M) (w rest : List Nat)
    (m : M) (hw : isSpan w = true) (hd : decode w = some m) :
    parseMessages decode (w ++ rest)
      = (m :: (parseMessages decode rest).1, (parseMessages decode rest).2) := by
  obtain ⟨_, h2, h3⟩ := finalState_span_ok decode w rest m hw hd
  simp only [Bool.false_eq_true, false_and, or_false] at h3
  simp only [parseMessages, h2, h3, drop_shift, List.singleton_append]

/-- A span that fails to decode, at the front of the buffer, followed by an opening
brace: the result is the result for what follows the span. -/
theorem parse_span_bad_brace {M : Type} (decode : List Nat → Option M)
    (w post : List Nat) (hw : isSpan w = true) (hd : decode w = none) :
    parseMessages decode (w ++ LBRACE :: post) = parseMessages decode (LBRACE :: post) := by
  have h : Shifted w.length ([] : List M) false 0
      (finalState decode (w ++ LBRACE :: post)) (finalState decode (LBRACE :: post)) := by
    unfold finalState
    rw [scan_append, scan_isSpan decode (w ++ LBRACE :: post) w 0 ScanState.init rfl hw]
    have hc : closeState decode (w ++ LBRACE :: post)
        { (ScanState.init : ScanState M) with start := 0 } (0 + w.length)
        = ScanState.init := by
      simp [closeState, slice_whole_left, hd, ScanState.init]
    have e : 0 + w.length + 1 = 1 + w.length := by omega
    rw [hc, scan, scan, step_lbrace, step_lbrace, e]
    apply scan_shifted
    simp [Shifted, ScanState.lex, ScanState.init]
  obtain ⟨_, h2, h3⟩ := h
  simp only [Bool.false_eq_true, false_and, or_false] at h3
  simp only [parseMessages, h2, h3, drop_shift, List.nil_append]

/-- Spans that all decode, one after the other with nothing between them: the result is
their messages in order and an empty remainder. -/
theorem parse_spans {M : Type} (decode : List Nat → Option M) (ws : List (List Nat))
    (ms : List M)
    (h : List.Forall₂ (fun w m => isSpan w = true ∧ decode w = some m) ws ms) :
    parseMessages decode ws.flatten = (ms, []) := by
  induction h with
  | nil => rfl
  | cons hwm _ ih =>
    rw [List.flatten_cons, parse_span_ok decode _ _ _ hwm.1 hwm.2, ih]

theorem isSpan_head {w : List Nat} (h : isSpan w = true) :
    ∃ body, w = LBRACE :: body := by
  cases w with
  | nil => simp [isSpan] at h
  | cons b body =>
    simp only [isSpan, Bool.and_eq_true, beq_iff_eq] at h
    exact ⟨body, by rw [h.1]⟩

/-! ## Where `start` ends up -/

theorem step_startInv {M : Type} (decode : List Nat → Option M) (data : List Nat)
    (i b : Nat) (s : ScanState M) (hb : data[i]? = some b) (h : StartInv decode data i s) :
    StartInv decode data (i + 1) (step decode data s i b) := by
  obtain ⟨h1, h2⟩ := h
  have keep : ∀ t : ScanState M, t.start = s.start → StartInv decode data (i + 1) t := by
    intro t ht
    refine ⟨by omega, ?_⟩
    rw [ht]
    exact h2
  rcases byte_cases b with e | e | e | e | e
  · subst e
    rw [step_lbrace]
    split_ifs with hi h0
    · exact keep _ rfl
    · exact ⟨by simp, Or.inr (Or.inl hb)⟩
    · exact keep _ rfl
  · subst e
    rw [step_rbrace]
    split_ifs with hi h0
    · exact keep _ rfl
    · cases hd : decode (slice data s.start (i + 1)) with
      | none => exact keep _ rfl
      | some msg =>
        refine ⟨by simp, Or.inr (Or.inr ⟨s.start, msg, ?_, hd⟩)⟩
        simp only
        omega
    · exact keep _ rfl
  · subst e
    rw [step_quote]
    split_ifs
    · exact keep _ rfl
    · exact keep _ rfl
  · subst e
    rw [step_backslash]
    exact keep _ rfl
  · rw [step_plain _ _ _ _ e]
    exact keep _ rfl

theorem scan_startInv {M : Type} (decode : List Nat → Option M) (data rest : List Nat)
    (i : Nat) (s : ScanState M) (hr : data.drop i = rest) (h : StartInv decode data i s) :
    StartInv decode data (i + rest.length) (scan decode data i rest s) := by
  induction rest generalizing i s with
  | nil => exact h
  | cons b rest ih =>
    have hb : data[i]? = some b := by
      rw [← List.head?_drop, hr]
      rfl
    have hr2 : data.drop (i + 1) = rest := by
      rw [← List.drop_drop, hr]
      rfl
    have e : i + (rest.length + 1) = i + 1 + rest.length := by omega
    rw [scan, List.length_cons, e]
    exact ih (i + 1) _ hr2 (step_startInv decode data i b s hb h)

theorem finalState_startInv {M : Type} (decode : List Nat → Option M) (data : List Nat) :
    StartInv decode data data.length (finalState decode data) := by
  have h := scan_startInv decode data data 0 ScanState.init rfl
    ⟨Nat.le_refl _, Or.inl rfl⟩
  rw [Nat.zero_add] at h
  exact h

/-! ## The example buffers are well-formed JSON -/

theorem jchars_plain {cs : List Nat}
    (h : ∀ b ∈ cs, 32 ≤ b ∧ b < 256 ∧ b ≠ 34 ∧ b ≠ 92) : JChars cs := by
  induction cs with
  | nil => exact JChars.nil
  | cons b cs ih =>
    obtain ⟨h1, h2, h3, h4⟩ := h b (List.mem_cons_self _ _)
    exact JChars.plain b cs h1 h2 h3 h4 (ih (fun x hx => h x (List.mem_cons_of_mem _ hx)))

theorem jstring_plain (cs : List Nat)
    (h : ∀ b ∈ cs, 32 ≤ b ∧ b < 256 ∧ b ≠ 34 ∧ b ≠ 92) : JString (34 :: (cs ++ [34])) :=
  ⟨cs, jchars_plain h, rfl⟩

theorem ws_nil : Ws [] := by
  intro b hb
  cases hb

/-- A member `"key":"value"` without whitespace. -/
theorem member_last (k v : List Nat) (hk : JString k) (hv : JString v) :
    Json Cat.members (k ++ 58 :: v) := by
  have h := Json.memLast [] k [] [] v [] ws_nil hk ws_nil ws_nil (Json.string v hv) ws_nil
  simpa using h

/-- A member `"key":"value"` without whitespace, a comma, and more members. -/
theorem member_cons (k v t : List Nat) (hk : JString k) (hv : JString v)
    (ht : Json Cat.members t) : Json Cat.members (k ++ 58 :: v ++ 44 :: t) := by
  have h := Json.memCons [] k [] [] v [] t ws_nil hk ws_nil ws_nil (Json.string v hv) ws_nil ht
  simpa using h

theorem jstring_id : JString [34, 105, 100, 34] := jstring_plain [105, 100] (by decide)

theorem jstring_note : JString [34, 110, 111, 116, 101, 34] :=
  jstring_plain [110, 111, 116, 101] (by decide)

theorem jobject_exId1 : JObject exId1 :=
  ⟨_, Or.inr (member_last _ _ jstring_id (jstring_plain [49] (by decide))), rfl⟩

theorem jobject_exId2 : JObject exId2 :=
  ⟨_, Or.inr (member_last _ _ jstring_id (jstring_plain [50] (by decide))), rfl⟩

theorem jobject_exBraces : JObject exBraces :=
  ⟨_, Or.inr (member_cons _ _ _ jstring_id (jstring_plain [49] (by decide))
    (member_last _ _ jstring_note (jstring_plain [125, 123] (by decide)))), rfl⟩

theorem jobject_exEscapedQuote : JObject exEscapedQuote :=
  ⟨_, Or.inr (member_cons _ _ _ jstring_id (jstring_plain [49] (by decide))
    (member_last _ _ jstring_note
      ⟨[92, 34], JChars.esc 34 [] (by decide) JChars.nil, rfl⟩)), rfl⟩

/-! ## A failed span anywhere in the buffer -/

theorem slice_ext (data ext : List Nat) (lo hi : Nat) (h : hi ≤ data.length) :
    slice (data ++ ext) lo hi = slice data lo hi := by
  unfold slice
  by_cases hlo : lo ≤ data.length
  · rw [List.drop_append_of_le_length hlo, List.take_append_of_le_length]
    rw [List.length_drop]
    omega
  · have e : hi - lo = 0 := by omega
    rw [e, List.take_zero, List.take_zero]

theorem step_ext {M : Type} (decode : List Nat → Option M) (data ext : List Nat)
    (s : ScanState M) (i b : Nat) (h : i + 1 ≤ data.length) :
    step decode (data ++ ext) s i b = step decode data s i b := by
  unfold step
  rw [slice_ext data ext s.start (i + 1) h]

/-- The loop over the first bytes of a buffer does not depend on what comes after them. -/
theorem scan_ext {M : Type} (decode : List Nat → Option M) (data ext t : List Nat)
    (i : Nat) (s : ScanState M) (h : i + t.length ≤ data.length) :
    scan decode (data ++ ext) i t s = scan decode data i t s := by
  induction t generalizing i s with
  | nil => rfl
  | cons b t ih =>
    rw [List.length_cons] at h
    rw [scan, scan, step_ext decode data ext s i b (by omega), ih (i + 1) _ (by omega)]

/-- The locals after `pre ++ m`, where the loop is lexically clean after `pre` and `m` is
a span that fails to decode: the messages of `pre`, `start` at the first byte of `m`,
and a clean lexical state. -/
theorem scan_failed_span {M : Type} (decode : List Nat → Option M)
    (pre m post : List Nat) (hpre : (finalState decode pre).lex = Lex.init)
    (hm : isSpan m = true) (hd : decode m = none) :
    scan decode (pre ++ m ++ post) 0 (pre ++ m) ScanState.init
      = ⟨(finalState decode pre).msgs, pre.length, 0, false, false⟩ := by
  have e1 : scan decode (pre ++ m ++ post) 0 pre ScanState.init = finalState decode pre := by
    rw [List.append_assoc, scan_ext decode pre (m ++ post) pre 0 _ (by simp)]
    rfl
  have hsl : slice (pre ++ m ++ post) pre.length (pre.length + m.length) = m := by
    have e : pre ++ m ++ post = pre ++ (m ++ post) := by simp
    have h0 := slice_shift pre (m ++ post) 0 m.length
    rw [Nat.zero_add, Nat.add_comm m.length pre.length] at h0
    rw [e, h0, slice_whole_left]
  rw [scan_append, e1, Nat.zero_add,
    scan_isSpan decode (pre ++ m ++ post) m pre.length _ hpre hm]
  simp only [closeState]
  rw [hsl, hd]

/-! ## Messages cut into chunks -/

/-- Before the last byte of a span the loop leaves `msgs` and `start` alone. -/
theorem scan_inner {M : Type} (decode : List Nat → Option M) (data : List Nat)
    (body q : List Nat) (i : Nat) (s : ScanState M) (h0 : 1 ≤ s.braceCount) (hq : q ≠ [])
    (h : spanRest s.lex (body ++ q) = true) :
    (scan decode data i body s).msgs = s.msgs ∧ (scan decode data i body s).start = s.start := by
  induction body generalizing i s with
  | nil => exact ⟨rfl, rfl⟩
  | cons b body ih =>
    have hne : body ++ q ≠ [] := by simp [hq]
    rw [List.cons_append, spanRest_cons hne, Bool.and_eq_true, decide_eq_true_eq] at h
    have hin := step_inner decode data s i b h0 h.1
    have hlex := step_lex decode data s i b
    have h0n : 1 ≤ (step decode data s i b).braceCount := by
      have h1 := h.1
      rw [← hlex] at h1
      exact h1
    have hsp : spanRest (step decode data s i b).lex (body ++ q) = true := by
      rw [hlex]
      exact h.2
    obtain ⟨r1, r2⟩ := ih (i + 1) (step decode data s i b) h0n hsp
    rw [scan, r1, r2]
    exact hin

/-- A span of which the last bytes are still missing: no message, and the buffer is
returned unchanged. -/
theorem parse_proper_front {M : Type} (decode : List Nat → Option M) (p q : List Nat)
    (hq : q ≠ []) (h : isSpan (p ++ q) = true) : parseMessages decode p = ([], p) := by
  cases p with
  | nil => rfl
  | cons b body =>
    simp only [List.cons_append, isSpan, Bool.and_eq_true, beq_iff_eq] at h
    obtain ⟨hb, hrest⟩ := h
    subst hb
    have hstep : step decode (LBRACE :: body) (ScanState.init : ScanState M) 0 LBRACE
        = ⟨[], 0, 1, false, false⟩ := by
      simp [step, ScanState.init]
    have hl : lexStep Lex.init LBRACE = (⟨[], 0, 1, false, false⟩ : ScanState M).lex := by
      simp [lexStep, Lex.init, ScanState.lex]
    rw [hl] at hrest
    obtain ⟨r1, r2⟩ := scan_inner decode (LBRACE :: body) body q 1 _ (by simp) hq hrest
    have hf : finalState decode (LBRACE :: body)
        = scan decode (LBRACE :: body) 1 body ⟨[], 0, 1, false, false⟩ := by
      unfold finalState
      rw [scan, hstep]
    simp only [parseMessages, hf, r1, r2, List.drop_zero]

/-- Spans that all decode, followed by the beginning of one more span: the messages of
the complete spans, and the incomplete one as remainder. -/
theorem parse_spans_front {M : Type} (decode : List Nat → Option M) (ws : List (List Nat))
    (ms : List M) (p q : List Nat)
    (h : List.Forall₂ (fun w m => isSpan w = true ∧ decode w = some m) ws ms)
    (hq : q ≠ []) (hp : isSpan (p ++ q) = true) :
    parseMessages decode (ws.flatten ++ p) = (ms, p) := by
  induction h with
  | nil =>
    rw [List.flatten_nil, List.nil_append]
    exact parse_proper_front decode p q hq hp
  | cons hwm _ ih =>
    rw [List.flatten_cons, List.append_assoc, parse_span_ok decode _ _ _ hwm.1 hwm.2, ih]

/-- A cut of the concatenation of spans falls inside one of them or between two. -/
theorem split_stream {M : Type} (decode : List Nat → Option M) (ws : List (List Nat))
    (ms : List M)
    (h : List.Forall₂ (fun w m => isSpan w = true ∧ decode w = some m) ws ms) :
    ∀ x y : List Nat, x ++ y = ws.flatten →
    ∃ wsA msA wsB msB p, ws = wsA ++ wsB ∧ ms = msA ++ msB ∧
      List.Forall₂ (fun w m => isSpan w = true ∧ decode w = some m) wsA msA ∧
      List.Forall₂ (fun w m => isSpan w = true ∧ decode w = some m) wsB msB ∧
      x = wsA.flatten ++ p ∧ p ++ y = wsB.flatten ∧
      (p = [] ∨ ∃ w tl q, wsB = w :: tl ∧ w = p ++ q ∧ q ≠ []) := by
  induction h with
  | nil =>
    intro x y hxy
    rw [List.flatten_nil, List.append_eq_nil] at hxy
    exact ⟨[], [], [], [], [], rfl, rfl, List.Forall₂.nil, List.Forall₂.nil,
      by simp [hxy.1], by simp [hxy.2], Or.inl rfl⟩
  | @cons w m ws ms hwm hrest ih =>
    intro x y hxy
    rw [List.flatten_cons, List.append_eq_append_iff] at hxy
    have inside : ∀ c, x = w ++ c → ws.flatten = c ++ y →
        ∃ wsA msA wsB msB p, w :: ws = wsA ++ wsB ∧ m :: ms = msA ++ msB ∧
          List.Forall₂ (fun w m => isSpan w = true ∧ decode w = some m) wsA msA ∧
          List.Forall₂ (fun w m => isSpan w = true ∧ decode w = some m) wsB msB ∧
          x = wsA.flatten ++ p ∧ p ++ y = wsB.flatten ∧
          (p = [] ∨ ∃ w tl q, wsB = w :: tl ∧ w = p ++ q ∧ q ≠ []) := by
      intro c hx hc
      obtain ⟨wsA, msA, wsB, msB, p, e1, e2, f1, f2, e3, e4, e5⟩ := ih c y hc.symm
      refine ⟨w :: wsA, m :: msA, wsB, msB, p, ?_, ?_, List.Forall₂.cons hwm f1, f2, ?_,
        e4, e5⟩
      · rw [e1, List.cons_append]
      · rw [e2, List.cons_append]
      · rw [hx, e3, List.flatten_cons, List.append_assoc]
    rcases hxy with ⟨a, hw, hy⟩ | ⟨c, hx, hc⟩
    · by_cases ha : a = []
      · subst ha
        rw [List.append_nil] at hw
        rw [List.nil_append] at hy
        exact inside [] (by rw [hw, List.append_nil]) (by rw [hy, List.nil_append])
      · refine ⟨[], [], w :: ws, m :: ms, x, rfl, rfl, List.Forall₂.nil,
          List.Forall₂.cons hwm hrest, by simp, ?_, Or.inr ⟨w, ws, a, rfl, hw, ha⟩⟩
        rw [List.flatten_cons, hw, hy, List.append_assoc]
    · exact inside c hx hc

/-- The accumulate step over the chunks still to come, from a buffer that holds the
beginning of the next span (or nothing): all the remaining messages come out, in order,
and the buffer ends empty. -/
theorem foldl_accumulate {M : Type} (decode : List Nat → Option M)
    (chunks : List (List Nat)) :
    ∀ (buf : List Nat) (out : List M) (ws : List (List Nat)) (ms : List M),
    List.Forall₂ (fun w m => isSpan w = true ∧ decode w = some m) ws ms →
    buf ++ chunks.flatten = ws.flatten →
    (buf = [] ∨ ∃ w tl q, ws = w :: tl ∧ w = buf ++ q ∧ q ≠ []) →
    chunks.foldl (accumulate decode) (buf, out) = ([], out ++ ms) := by
  induction chunks with
  | nil =>
    intro buf out ws ms h hcat hpre
    rw [List.flatten_nil, List.append_nil] at hcat
    rcases hpre with hb | ⟨w, tl, q, e1, e2, hq⟩
    · subst hb
      cases h with
      | nil => simp
      | cons hwm _ =>
        obtain ⟨body, hbody⟩ := isSpan_head hwm.1
        rw [hbody] at hcat
        simp at hcat
    · subst e1
      rw [List.flatten_cons, e2, List.append_assoc] at hcat
      have := List.self_eq_append_right.mp hcat
      rw [List.append_eq_nil] at this
      exact absurd this.1 hq
  | cons c chunks ih =>
    intro buf out ws ms h hcat _
    rw [List.flatten_cons, ← List.append_assoc] at hcat
    obtain ⟨wsA, msA, wsB, msB, p, e1, e2, f1, f2, e3, e4, e5⟩ :=
      split_stream decode ws ms h (buf ++ c) chunks.flatten hcat
    have hparse : parseMessages decode (buf ++ c) = (msA, p) := by
      rw [e3]
      rcases e5 with hp | ⟨w, tl, q, e6, e7, hq⟩
      · subst hp
        rw [List.append_nil]
        exact parse_spans decode wsA msA f1
      · subst e6
        cases f2 with
        | cons hwm _ =>
          rw [e7] at hwm
          exact parse_spans_front decode wsA msA p q f1 hq hwm.1
    rw [List.foldl_cons]
    have hacc : accumulate decode (buf, out) c = (p, out ++ msA) := by
      simp only [accumulate, hparse]
    rw [hacc, ih p (out ++ msA) wsB msB f2 e4 e5, e2, List.append_assoc]

/-- Well-formed messages without backslashes, concatenated and cut into chunks in any
way: the accumulate step of the receive loop, run over the chunks, produces exactly
their decodings, in order, and ends with an empty buffer. -/
theorem feed_chunks_no_backslash {M : Type} (decode : List Nat → Option M)
    (ws : List (List Nat)) (ms : List M) (chunks : List (List Nat))
    (h : List.Forall₂ (fun w m => WellFormed decode w m ∧ NoBackslash w) ws ms)
    (hc : chunks.flatten = ws.flatten) :
    feed decode chunks = ([], ms) := by
  have hs : List.Forall₂ (fun w m => isSpan w = true ∧ decode w = some m) ws ms :=
    h.imp (fun _ _ hwm => ⟨isSpan_of_object hwm.1.1 hwm.2, hwm.1.2⟩)
  have := foldl_accumulate decode chunks [] [] ws ms hs (by simpa using hc) (Or.inl rfl)
  simpa [feed] using this

/-- A well-formed message without backslashes, cut in two with a non-empty second part:
the first part alone gives no message and is returned unchanged, the two parts together
give the message and an empty remainder. -/
theorem split_message_no_backslash {M : Type} (decode : List Nat → Option M)
    (c1 c2 : List Nat) (m : M) (hw : WellFormed decode (c1 ++ c2) m)
    (hb : NoBackslash (c1 ++ c2)) (h2 : c2 ≠ []) :
    parseMessages decode c1 = ([], c1) ∧ parseMessages decode (c1 ++ c2) = ([m], []) := by
  have hs := isSpan_of_object hw.1 hb
  refine ⟨parse_proper_front decode c1 c2 h2 hs, ?_⟩
  have h := parse_span_ok decode (c1 ++ c2) [] m hs hw.2
  rw [List.append_nil] at h
  rw [h]
  rfl

/-! ## The deframer: claims -/

/-- C2 (fails on the code). The escape flag is not reset by every byte other than the
backslash: a quote, `{` or `}` met with the flag set leaves it set. On the well-formed
object `{"id":"1","note":"\""}` the loop therefore skips the quote that closes the note,
never sees the depth return to 0, and `parseMessages` returns no message and the whole
buffer as remainder, whatever the decoder. -/
theorem C2_escaped_quote_not_framed :
    JObject exEscapedQuote ∧
    (∀ (M : Type) (decode : List Nat → Option M),
      parseMessages decode exEscapedQuote = ([], exEscapedQuote)) ∧
    (∀ (M : Type) (decode : List Nat → Option M) (data : List Nat) (s : ScanState M)
      (i : Nat), s.escape = true →
        (step decode data s i QUOTE).escape = true ∧
        (step decode data s i LBRACE).escape = true ∧
        (step decode data s i RBRACE).escape = true) := by
  refine ⟨jobject_exEscapedQuote, fun _ _ => rfl, ?_⟩
  intro M decode data s i h
  refine ⟨?_, ?_, ?_⟩
  · rw [step_quote]
    simp [h]
  · rw [step_lbrace]
    split_ifs <;> simp [h]
  · rw [step_rbrace]
    split_ifs
    · exact h
    · cases decode (slice data s.start (i + 1)) <;> exact h
    · exact h

/-- C1 (fails on the code). The byte stream of the single well-formed message
`{"id":"1","note":"\""}`, fed as one chunk, as two chunks, or one byte per chunk, yields no
message at all and leaves all 22 bytes in the buffer. -/
theorem C1_escaped_quote_stream_yields_nothing :
    JObject exEscapedQuote ∧
    (∀ (M : Type) (decode : List Nat → Option M),
      feed decode [exEscapedQuote] = (exEscapedQuote, [])) ∧
    (∀ (M : Type) (decode : List Nat → Option M),
      feed decode [exChunk1, exChunk2] = (exEscapedQuote, [])) ∧
    feed acceptAll (exEscapedQuote.map (fun b => [b])) = (exEscapedQuote, []) := by
  refine ⟨jobject_exEscapedQuote, fun _ _ => rfl, fun _ _ => rfl, ?_⟩
  decide

/-- C7 (fails on the code). The well-formed message `{"id":"1","note":"\""}` split as
`{"id":"1","not` and `e":"\""}`: the first chunk alone gives zero messages and itself as
remainder, but the two chunks together still give zero messages and a non-empty
remainder. -/
theorem C7_split_escaped_quote_yields_nothing :
    JObject (exChunk1 ++ exChunk2) ∧ exChunk2 ≠ [] ∧
    (∀ (M : Type) (decode : List Nat → Option M),
      parseMessages decode exChunk1 = ([], exChunk1) ∧
      parseMessages decode (exChunk1 ++ exChunk2) = ([], exChunk1 ++ exChunk2)) := by
  refine ⟨jobject_exEscapedQuote, by decide, fun _ _ => ⟨rfl, rfl⟩⟩

/-- C5. A well-formed JSON object without backslashes, whatever braces its strings
contain, that the decoder decodes into `m`: `parseMessages` returns exactly `[m]` and
an empty remainder. Inside a string literal a brace changes none of the locals, in
particular neither the depth nor `start`. -/
theorem C5_braces_in_strings {M : Type} (decode : List Nat → Option M) (w : List Nat)
    (m : M) (hw : WellFormed decode w m) (hb : NoBackslash w) :
    parseMessages decode w = ([m], []) ∧
    (∀ (data : List Nat) (s : ScanState M) (i b : Nat), s.inString = true →
      (b = LBRACE ∨ b = RBRACE) → step decode data s i b = s) := by
  constructor
  · have h := parse_span_ok decode w [] m (isSpan_of_object hw.1 hb) hw.2
    rw [List.append_nil] at h
    rw [h]
    rfl
  · intro data s i b hs hbr
    rcases hbr with e | e
    · subst e
      rw [step_lbrace, if_pos hs]
    · subst e
      rw [step_rbrace, if_pos hs]

/-- C5, witness: `{"id":"1","note":"}{"}` yields one message. -/
theorem C5_braces_in_strings_witness :
    parseMessages acceptAll exBraces = ([exBraces], []) :=
  (C5_braces_in_strings acceptAll exBraces exBraces ⟨jobject_exBraces, rfl⟩ (by decide)).1

/-- C6. Well-formed JSON messages without backslashes, concatenated with nothing between
them and parsed as one buffer: the result is their decodings, in order, and an empty
remainder. -/
theorem C6_back_to_back {M : Type} (decode : List Nat → Option M) (ws : List (List Nat))
    (ms : List M)
    (h : List.Forall₂ (fun w m => WellFormed decode w m ∧ NoBackslash w) ws ms) :
    parseMessages decode ws.flatten = (ms, []) := by
  apply parse_spans
  exact h.imp (fun _ _ hwm => ⟨isSpan_of_object hwm.1.1 hwm.2, hwm.1.2⟩)

/-- C6, witness: `{"id":"1"}{"id":"2"}` yields the two messages, the first one first. -/
theorem C6_back_to_back_witness :
    parseMessages acceptAll [exId1, exId2].flatten = ([exId1, exId2], []) :=
  C6_back_to_back acceptAll [exId1, exId2] [exId1, exId2]
    (List.Forall₂.cons ⟨⟨jobject_exId1, rfl⟩, by decide⟩
      (List.Forall₂.cons ⟨⟨jobject_exId2, rfl⟩, by decide⟩ List.Forall₂.nil))

/-- C3 as stated fails: the brace-balanced span `{x}`, which the decoder rejects, alone in
the buffer, is returned whole as the remainder. -/
theorem C3_counterexample :
    isSpan exBad = true ∧ rejectOnly exBad exBad = none ∧
    parseMessages (rejectOnly exBad) exBad = ([], exBad) := by
  decide

/-- C3, amended. Let the buffer be `pre ++ m ++ post`, the loop being at depth 0 outside
a string with the escape flag clear after `pre`, and `m` a brace-balanced span that fails
to decode. The span yields no message: the messages are those of `pre` followed by those
of `post`. `start` is left at the first byte of the span: with nothing after it the span
is the remainder, in general the remainder is the remainder of `post` or else
`m ++ post`, and the span has left the remainder as soon as an opening brace follows
it. -/
theorem C3_failed_span {M : Type} (decode : List Nat → Option M) (pre m post : List Nat)
    (hpre : (finalState decode pre).lex = Lex.init)
    (hm : isSpan m = true) (hd : decode m = none) :
    (parseMessages decode (pre ++ m ++ post)).1
      = (parseMessages decode pre).1 ++ (parseMessages decode post).1 ∧
    ((parseMessages decode (pre ++ m ++ post)).2 = (parseMessages decode post).2 ∨
      (parseMessages decode (pre ++ m ++ post)).2 = m ++ post) ∧
    parseMessages decode (pre ++ m) = ((parseMessages decode pre).1, m) ∧
    (∀ post2, parseMessages decode (pre ++ m ++ LBRACE :: post2)
      = ((parseMessages decode pre).1 ++ (parseMessages decode (LBRACE :: post2)).1,
          (parseMessages decode (LBRACE :: post2)).2)) := by
  have hlen : (pre ++ m).length = pre.length + m.length := List.length_append _ _
  have key : ∀ post : List Nat,
      Shifted (pre ++ m).length (finalState decode pre).msgs true pre.length
        (finalState decode (pre ++ m ++ post)) (finalState decode post) := by
    intro post
    have h1 : finalState decode (pre ++ m ++ post)
        = scan decode (pre ++ m ++ post) (0 + (pre ++ m).length) post
            ⟨(finalState decode pre).msgs, pre.length, 0, false, false⟩ := by
      show scan decode (pre ++ m ++ post) 0 (pre ++ m ++ post) ScanState.init = _
      rw [scan_append, scan_failed_span decode pre m post hpre hm hd]
    have h2 : finalState decode post = scan decode post 0 post ScanState.init := rfl
    rw [h1, h2]
    apply scan_shifted
    simp [Shifted, ScanState.lex, ScanState.init]
  have hdrop : (pre ++ m ++ post).drop pre.length = m ++ post := by
    rw [List.append_assoc, List.drop_left]
  refine ⟨?_, ?_, ?_, ?_⟩
  · obtain ⟨_, h2, _⟩ := key post
    simp only [parseMessages, h2]
  · obtain ⟨_, _, h3⟩ := key post
    rcases h3 with h3 | ⟨_, h3, _⟩
    · left
      simp only [parseMessages, h3, drop_shift]
    · right
      simp only [parseMessages, h3, hdrop]
  · have h1 := scan_failed_span decode pre m [] hpre hm hd
    rw [List.append_nil] at h1
    have h2 : finalState decode (pre ++ m)
        = ⟨(finalState decode pre).msgs, pre.length, 0, false, false⟩ := h1
    simp only [parseMessages, h2, List.drop_left]
  · intro post2
    have h : Shifted (pre ++ m).length (finalState decode pre).msgs false 0
        (finalState decode (pre ++ m ++ LBRACE :: post2))
        (finalState decode (LBRACE :: post2)) := by
      have h1 : finalState decode (pre ++ m ++ LBRACE :: post2)
          = scan decode (pre ++ m ++ LBRACE :: post2) (1 + (pre ++ m).length) post2
              ⟨(finalState decode pre).msgs, (pre ++ m).length, 1, false, false⟩ := by
        have e : 0 + (pre ++ m).length + 1 = 1 + (pre ++ m).length := by omega
        show scan decode (pre ++ m ++ LBRACE :: post2) 0 (pre ++ m ++ LBRACE :: post2)
          ScanState.init = _
        rw [scan_append, scan_failed_span decode pre m _ hpre hm hd, scan, step_lbrace, e,
          hlen]
        simp
      have h2 : finalState decode (LBRACE :: post2)
          = scan decode (LBRACE :: post2) 1 post2 ⟨[], 0, 1, false, false⟩ := by
        show scan decode (LBRACE :: post2) 0 (LBRACE :: post2) ScanState.init = _
        rw [scan, step_lbrace]
        rfl
      rw [h1, h2]
      apply scan_shifted
      simp [Shifted, ScanState.lex]
    obtain ⟨_, h2, h3⟩ := h
    simp only [Bool.false_eq_true, false_and, or_false] at h3
    simp only [parseMessages, h2, h3, drop_shift]

/-- C3, amended, witness: the rejected span `{x}` between `{"id":"1"}` and `{"id":"2"}`,
and at the end of the buffer behind `{"id":"1"}`. -/
theorem C3_failed_span_witness :
    (finalState (rejectOnly exBad) exId1).lex = Lex.init ∧
    isSpan exBad = true ∧ rejectOnly exBad exBad = none ∧
    (parseMessages (rejectOnly exBad) (exId1 ++ exBad ++ exId2)).1
      = (parseMessages (rejectOnly exBad) exId1).1
        ++ (parseMessages (rejectOnly exBad) exId2).1 ∧
    parseMessages (rejectOnly exBad) (exId1 ++ exBad)
      = ((parseMessages (rejectOnly exBad) exId1).1, exBad) :=
  ⟨by decide, by decide, by decide,
    (C3_failed_span (rejectOnly exBad) exId1 exBad exId2 (by decide) (by decide)
      (by decide)).1,
    (C3_failed_span (rejectOnly exBad) exId1 exBad exId2 (by decide) (by decide)
      (by decide)).2.2.1⟩

/-- C4 as stated fails for `k = 0`: the rejected span `{x}` followed by no message at all
gives the remainder `{x}`, not the empty one. -/
theorem C4_counterexample :
    isSpan exBad = true ∧ rejectOnly exBad exBad = none ∧
    List.Forall₂ (fun w m => WellFormed (rejectOnly exBad) w m ∧ NoBackslash w) [] [] ∧
    parseMessages (rejectOnly exBad) (exBad ++ ([] : List (List Nat)).flatten)
      = ([], exBad) ∧
    exBad ≠ [] :=
  ⟨by decide, by decide, List.Forall₂.nil, by decide, by decide⟩

/-- C4, amended. A brace-balanced span `m` that fails to decode, followed by at least one
well-formed JSON message, all of them without backslashes: `parseMessages` returns
exactly the decodings of the messages, in order, and an empty remainder. -/
theorem C4_failed_span_then_messages {M : Type} (decode : List Nat → Option M)
    (m : List Nat) (vs : List (List Nat)) (ms : List M)
    (hm : isSpan m = true) (hd : decode m = none) (hk : vs ≠ [])
    (h : List.Forall₂ (fun w m => WellFormed decode w m ∧ NoBackslash w) vs ms) :
    parseMessages decode (m ++ vs.flatten) = (ms, []) := by
  have hs : List.Forall₂ (fun w m => isSpan w = true ∧ decode w = some m) vs ms :=
    h.imp (fun _ _ hwm => ⟨isSpan_of_object hwm.1.1 hwm.2, hwm.1.2⟩)
  have hp := parse_spans decode vs ms hs
  cases hs with
  | nil => exact absurd rfl hk
  | cons hv _ =>
    obtain ⟨body, hb⟩ := isSpan_head hv.1
    subst hb
    rw [List.flatten_cons, List.cons_append] at hp ⊢
    rw [parse_span_bad_brace decode m _ hm hd, hp]

/-- C4, amended, witness: `{x}{"id":"1"}{"id":"2"}` with a decoder that rejects `{x}`. -/
theorem C4_failed_span_then_messages_witness :
    parseMessages (rejectOnly exBad) (exBad ++ [exId1, exId2].flatten)
      = ([exId1, exId2], []) :=
  C4_failed_span_then_messages (rejectOnly exBad) exBad [exId1, exId2] [exId1, exId2]
    (by decide) (by decide) (by simp)
    (List.Forall₂.cons ⟨⟨jobject_exId1, by decide⟩, by decide⟩
      (List.Forall₂.cons ⟨⟨jobject_exId2, by decide⟩, by decide⟩ List.Forall₂.nil))

/-- C9 as stated fails: for `{"a":1}` followed by a line feed the remainder is the line
feed, neither empty nor starting with an opening brace; for the buffer `abc` it is
`abc`. -/
theorem C9_counterexample :
    (parseMessages acceptAll exTrailing).2 = [10] ∧
    (parseMessages acceptAll [97, 98, 99]).2 = [97, 98, 99] := by
  decide

/-- C9, amended. For every buffer, `start` never exceeds the length of the buffer, the
remainder is the suffix of the buffer from `start`, and it is empty, or begins with an
opening brace, or is the whole buffer, or begins right behind a span that was decoded. -/
theorem C9_remainder {M : Type} (decode : List Nat → Option M) (data : List Nat) :
    (finalState decode data).start ≤ data.length ∧
    (parseMessages decode data).2 = data.drop (finalState decode data).start ∧
    (parseMessages decode data).2 <:+ data ∧
    ((parseMessages decode data).2 = [] ∨
      (parseMessages decode data).2.head? = some LBRACE ∨
      (parseMessages decode data).2 = data ∨
      ∃ a m, a < (finalState decode data).start ∧
        decode (slice data a (finalState decode data).start) = some m) := by
  obtain ⟨h1, h2⟩ := finalState_startInv decode data
  refine ⟨h1, rfl, List.drop_suffix _ _, ?_⟩
  rcases h2 with h2 | h2 | h2
  · right; right; left
    simp [parseMessages, h2]
  · right; left
    simp only [parseMessages]
    rw [List.head?_drop]
    exact h2
  · right; right; right
    exact h2

/-! ## The dispatcher: claims -/

theorem lookup_isSome_iff (k : String) (fields : List (String × Content)) :
    (fields.lookup k).isSome = true ↔ ∃ v, (k, v) ∈ fields := by
  induction fields with
  | nil => simp [List.lookup]
  | cons kv fields ih =>
    obtain ⟨k2, v2⟩ := kv
    by_cases h : k = k2
    · subst h
      simp only [List.lookup, beq_self_eq_true, Option.isSome_some, true_iff]
      exact ⟨v2, List.mem_cons_self _ _⟩
    · have hb : (k == k2) = false := by simpa using h
      simp only [List.lookup, hb, ih, List.mem_cons, Prod.mk.injEq, h, false_and, false_or]

theorem isObjectEvent_iff (fields : List (String × Content)) :
    isObjectEvent fields = true ↔ ∃ v, ("eventName", v) ∈ fields := by
  rw [← lookup_isSome_iff]
  unfold isObjectEvent
  cases (List.lookup "eventName" fields).isSome <;> simp

theorem handle_eq (name : String) (msg : Message) :
    (ContainsEventName msg.content ∧ handleEdgeMeshMessage name msg = []) ∨
    (¬ ContainsEventName msg.content ∧ handleEdgeMeshMessage name msg = [(name, msg)]) := by
  unfold handleEdgeMeshMessage Message.GetContent ContainsEventName
  cases hc : msg.content with
  | object fields =>
    by_cases h : isObjectEvent fields = true
    · left
      exact ⟨⟨fields, rfl, (isObjectEvent_iff fields).mp h⟩, by simp [asMap, h]⟩
    · right
      refine ⟨?_, by simp [asMap, h]⟩
      rintro ⟨f2, hf, hv⟩
      cases hf
      exact h ((isObjectEvent_iff fields).mpr hv)
  | null => right; exact ⟨(by rintro ⟨f, hf, _⟩; cases hf), (by simp [asMap])⟩
  | bool b => right; exact ⟨(by rintro ⟨f, hf, _⟩; cases hf), (by simp [asMap])⟩
  | number n => right; exact ⟨(by rintro ⟨f, hf, _⟩; cases hf), (by simp [asMap])⟩
  | string x => right; exact ⟨(by rintro ⟨f, hf, _⟩; cases hf), (by simp [asMap])⟩
  | array xs => right; exact ⟨(by rintro ⟨f, hf, _⟩; cases hf), (by simp [asMap])⟩

/-- C8. `handleEdgeMeshMessage` makes exactly one `Send`, addressed to the module's own
name and carrying the message unchanged, if and only if the content is not a JSON object
with the key `eventName`; it makes no `Send` at all if and only if the content is such an
object. A content that is null, a boolean, a number, a string, an array or an object
without the key is forwarded once. -/
theorem C8_dispatch (name : String) (msg : Message) :
    (handleEdgeMeshMessage name msg = [(name, msg)] ↔ ¬ ContainsEventName msg.content) ∧
    (handleEdgeMeshMessage name msg = [] ↔ ContainsEventName msg.content) ∧
    (handleEdgeMeshMessage name msg = [] ∨ handleEdgeMeshMessage name msg = [(name, msg)]) ∧
    (∀ (b : Bool) (n x : String) (xs : List Content) (v : Content),
      handleEdgeMeshMessage name { msg with content := Content.null }
        = [(name, { msg with content := Content.null })] ∧
      handleEdgeMeshMessage name { msg with content := Content.bool b }
        = [(name, { msg with content := Content.bool b })] ∧
      handleEdgeMeshMessage name { msg with content := Content.number n }
        = [(name, { msg with content := Content.number n })] ∧
      handleEdgeMeshMessage name { msg with content := Content.string x }
        = [(name, { msg with content := Content.string x })] ∧
      handleEdgeMeshMessage name { msg with content := Content.array xs }
        = [(name, { msg with content := Content.array xs })] ∧
      handleEdgeMeshMessage name { msg with content := Content.object [("nodeName", v)] }
        = [(name, { msg with content := Content.object [("nodeName", v)] })] ∧
      handleEdgeMeshMessage name
        { msg with content := Content.object [("nodeName", v), ("eventName", x |> Content.string)] }
        = []) := by
  refine ⟨?_, ?_, ?_, ?_⟩
  · rcases handle_eq name msg with ⟨h1, h2⟩ | ⟨h1, h2⟩
    · rw [h2]
      simp [h1]
    · rw [h2]
      simp [h1]
  · rcases handle_eq name msg with ⟨h1, h2⟩ | ⟨h1, h2⟩
    · rw [h2]
      simp [h1]
    · rw [h2]
      simp [h1]
  · rcases handle_eq name msg with ⟨_, h2⟩ | ⟨_, h2⟩
    · exact Or.inl h2
    · exact Or.inr h2
  · intro b n x xs v
    refine ⟨rfl, rfl, rfl, rfl, rfl, ?_, ?_⟩
    · simp [handleEdgeMeshMessage, Message.GetContent, asMap, isObjectEvent, List.lookup]
    · simp [handleEdgeMeshMessage, Message.GetContent, asMap, isObjectEvent, List.lookup]

/-! ## The supervisor: claims -/

end MetaManager
